import Mathlib

/-!
Shallow embedding of the banded weighted-DTW kernel `weighted_euclidean`
from `src/oc_wdtw.cpp`.

The C kernel is

  for (int i = 1; i < m; ++i)
    for (int j = std::max(1, i - window); j < std::min(m, i + window); ++j) {
      cost = w[i] * w[j] * sqrt(sum_k (X1[i,k] - X2[j,k])^2);
      costs(i, j) = cost + min(costs(i, j-1),
                           min(costs(i-1, j), costs(i-1, j-1)));
    }

Buffers are modelled as total functions over the integers (row-major layout
abstracted away), float arithmetic as real arithmetic, and the two nested
loops as left folds over ascending integer ranges.  A second, bounds-checked
variant threads every buffer access through an Option-returning accessor so
that in-bounds execution of the kernel can be stated and proved.
-/

/-- Auxiliary for `intRange`: the `n` consecutive integers starting at `a`. -/
def intRangeAux (a : ℤ) : ℕ → List ℤ
  | 0 => []
  | n + 1 => a :: intRangeAux (a + 1) n

/-- The list of integers `[a, a+1, ..., b-1]` (empty when `b ≤ a`),
mirroring an ascending C `for` loop from `a` inclusive to `b` exclusive. -/
def intRange (a b : ℤ) : List ℤ :=
  intRangeAux a (b - a).toNat

/-- Write value `v` into cell `(i, j)` of the cost matrix. -/
def writeCell (C : ℤ → ℤ → ℝ) (i j : ℤ) (v : ℝ) : ℤ → ℤ → ℝ :=
  fun a b => if a = i ∧ b = j then v else C a b

/-- The sum of squared differences `sum_k (X1[i,k] - X2[j,k])^2`, `k` running
over `[0, n)`, as the C code accumulates it. -/
noncomputable def sqDiff (X1 X2 : ℤ → ℤ → ℝ) (n i j : ℤ) : ℝ :=
  (intRange 0 n).foldl (fun acc k => acc + (X1 i k - X2 j k) ^ 2) 0

/-- The local cost `w[i] * w[j] * sqrt(sum_k (X1[i,k] - X2[j,k])^2)`. -/
noncomputable def localCost (X1 X2 : ℤ → ℤ → ℝ) (W : ℤ → ℝ) (n i j : ℤ) : ℝ :=
  W i * W j * Real.sqrt (sqDiff X1 X2 n i j)

/-- One iteration of the inner loop body: write cell `(i, j)`. -/
noncomputable def bandStep (X1 X2 : ℤ → ℤ → ℝ) (W : ℤ → ℝ) (n i : ℤ)
    (C : ℤ → ℤ → ℝ) (j : ℤ) : ℤ → ℤ → ℝ :=
  writeCell C i j (localCost X1 X2 W n i j +
    min (C i (j - 1)) (min (C (i - 1) j) (C (i - 1) (j - 1))))

/-- The inner loop over a list of column indices `js`. -/
noncomputable def innerFold (X1 X2 : ℤ → ℤ → ℝ) (W : ℤ → ℝ) (n i : ℤ)
    (js : List ℤ) (C : ℤ → ℤ → ℝ) : ℤ → ℤ → ℝ :=
  js.foldl (bandStep X1 X2 W n i) C

/-- One iteration of the outer loop: run the inner loop of row `i` over
`j ∈ [max(1, i - window), min(m, i + window))`. -/
noncomputable def rowStep (X1 X2 : ℤ → ℤ → ℝ) (W : ℤ → ℝ) (m n window : ℤ)
    (C : ℤ → ℤ → ℝ) (i : ℤ) : ℤ → ℤ → ℝ :=
  innerFold X1 X2 W n i (intRange (max 1 (i - window)) (min m (i + window))) C

/-- The outer loop over a list of row indices. -/
noncomputable def runRows (X1 X2 : ℤ → ℤ → ℝ) (W : ℤ → ℝ) (m n window : ℤ)
    (rows : List ℤ) (C : ℤ → ℤ → ℝ) : ℤ → ℤ → ℝ :=
  rows.foldl (rowStep X1 X2 W m n window) C

/-- The kernel `weighted_euclidean` of `src/oc_wdtw.cpp`: run the outer loop
over `i ∈ [1, m)` starting from the caller-supplied cost matrix `C`. -/
noncomputable def weighted_euclidean (X1 X2 : ℤ → ℤ → ℝ) (W : ℤ → ℝ)
    (m n window : ℤ) (C : ℤ → ℤ → ℝ) : ℤ → ℤ → ℝ :=
  runRows X1 X2 W m n window (intRange 1 m) C

/-- Cell `(i, j)` is evaluated (written) by the kernel: `i` is visited by the
outer loop and `j` by the inner loop of row `i`. -/
def evalCell (m window i j : ℤ) : Prop :=
  1 ≤ i ∧ i < m ∧ max 1 (i - window) ≤ j ∧ j < min m (i + window)

instance decEvalCell (m window i j : ℤ) : Decidable (evalCell m window i j) :=
  inferInstanceAs (Decidable (1 ≤ i ∧ i < m ∧ max 1 (i - window) ≤ j ∧ j < min m (i + window)))

/-- Cell `(a, b)` is one of the three DP predecessors read when cell `(i, j)`
is evaluated. -/
def isPred (i j a b : ℤ) : Prop :=
  (a = i ∧ b = j - 1) ∨ (a = i - 1 ∧ b = j) ∨ (a = i - 1 ∧ b = j - 1)

/-- Cell `(a, b)` is a boundary cell whose caller-supplied value the
recurrence can read: it is not evaluated itself, yet it is a predecessor of
some evaluated cell. -/
def readableBoundary (m window a b : ℤ) : Prop :=
  ¬ evalCell m window a b ∧ ∃ i j, evalCell m window i j ∧ isPred i j a b

/-- Cell `(a, b)` lies in the dependency chain of cell `(i, j)`: it is a
predecessor of `(i, j)`, or a predecessor of an evaluated cell already in the
chain. -/
inductive DepReach (m w : ℤ) : ℤ → ℤ → ℤ → ℤ → Prop
  | base {i j a b : ℤ} : isPred i j a b → DepReach m w i j a b
  | step {i j p q a b : ℤ} : isPred i j p q → evalCell m w p q →
      DepReach m w p q a b → DepReach m w i j a b

section CheckedEmbedding

/-- Bounds-checked read of a `rows × cols` matrix buffer. -/
def getM (X : ℤ → ℤ → ℝ) (rows cols i j : ℤ) : Option ℝ :=
  if 0 ≤ i ∧ i < rows ∧ 0 ≤ j ∧ j < cols then some (X i j) else none

/-- Bounds-checked read of a length-`len` vector buffer. -/
def getV (W : ℤ → ℝ) (len i : ℤ) : Option ℝ :=
  if 0 ≤ i ∧ i < len then some (W i) else none

/-- Bounds-checked write into a `rows × cols` matrix buffer. -/
def setM (C : ℤ → ℤ → ℝ) (rows cols i j : ℤ) (v : ℝ) : Option (ℤ → ℤ → ℝ) :=
  if 0 ≤ i ∧ i < rows ∧ 0 ≤ j ∧ j < cols then some (writeCell C i j v) else none

/-- Bounds-checked accumulation of the squared differences of row `i` of `X1`
and row `j` of `X2` (both `m × n` buffers). -/
noncomputable def sqDiffChecked (X1 X2 : ℤ → ℤ → ℝ) (m n i j : ℤ) : Option ℝ :=
  (intRange 0 n).foldlM
    (fun acc k => do
      let a ← getM X1 m n i k
      let b ← getM X2 m n j k
      pure (acc + (a - b) ^ 2)) 0

/-- Bounds-checked inner loop body. -/
noncomputable def bandStepChecked (X1 X2 : ℤ → ℤ → ℝ) (W : ℤ → ℝ) (m n i : ℤ)
    (C : ℤ → ℤ → ℝ) (j : ℤ) : Option (ℤ → ℤ → ℝ) := do
  let s ← sqDiffChecked X1 X2 m n i j
  let wi ← getV W m i
  let wj ← getV W m j
  let p1 ← getM C m m i (j - 1)
  let p2 ← getM C m m (i - 1) j
  let p3 ← getM C m m (i - 1) (j - 1)
  setM C m m i j (wi * wj * Real.sqrt s + min p1 (min p2 p3))

/-- The kernel with every buffer access bounds-checked; an out-of-range index
anywhere makes the whole run return `none`. -/
noncomputable def checked_weighted_euclidean (X1 X2 : ℤ → ℤ → ℝ) (W : ℤ → ℝ)
    (m n window : ℤ) (C : ℤ → ℤ → ℝ) : Option (ℤ → ℤ → ℝ) :=
  (intRange 1 m).foldlM
    (fun acc i =>
      (intRange (max 1 (i - window)) (min m (i + window))).foldlM
        (bandStepChecked X1 X2 W m n i) acc) C

end CheckedEmbedding

section ConcreteInputs

/-- Concrete sequence: feature value of row `i` is `i` (column vector `[0, 1, 2]`
for `m = 3`, `n = 1`). -/
noncomputable def X1c : ℤ → ℤ → ℝ := fun i _ => (i : ℝ)

/-- Concrete weight vector: all ones. -/
noncomputable def Wc : ℤ → ℝ := fun _ => 1

/-- Concrete cost-matrix initialization: `0` at the origin, the sentinel
`1e9` everywhere else. -/
noncomputable def C0c : ℤ → ℤ → ℝ := fun a b =>
  if a = 0 ∧ b = 0 then 0 else 1000000000

/-- Concrete all-zero buffer. -/
noncomputable def zeroM : ℤ → ℤ → ℝ := fun _ _ => 0

/-- Concrete buffer whose row 2 holds feature value `1`, all other rows `0`. -/
noncomputable def oneAt2 : ℤ → ℤ → ℝ := fun r _ => if r = 2 then 1 else 0

/-- Concrete weight vector with a negative entry at index 2. -/
noncomputable def Wneg : ℤ → ℝ := fun i => if i = 2 then -1 else 1

end ConcreteInputs

theorem mem_intRangeAux : ∀ (n : ℕ) (a j : ℤ), j ∈ intRangeAux a n ↔ a ≤ j ∧ j < a + n := by
  intro n
  induction n with
  | zero => intro a j; simp [intRangeAux]
  | succ n ih =>
    intro a j
    simp only [intRangeAux, List.mem_cons, ih]
    omega

theorem mem_intRange {a b j : ℤ} : j ∈ intRange a b ↔ a ≤ j ∧ j < b := by
  unfold intRange
  rw [mem_intRangeAux]
  omega

theorem intRange_nil {a b : ℤ} (h : b ≤ a) : intRange a b = [] := by
  unfold intRange
  rw [show (b - a).toNat = 0 by omega]
  rfl

theorem intRangeAux_append : ∀ (n m : ℕ) (a : ℤ),
    intRangeAux a (n + m) = intRangeAux a n ++ intRangeAux (a + n) m := by
  intro n
  induction n with
  | zero => intro m a; simp [intRangeAux]
  | succ n ih =>
    intro m a
    rw [show n + 1 + m = (n + m) + 1 by omega]
    have e : a + ((n + 1 : ℕ) : ℤ) = (a + 1) + (n : ℤ) := by push_cast; ring
    show a :: intRangeAux (a + 1) (n + m) =
      intRangeAux a (n + 1) ++ intRangeAux (a + ((n + 1 : ℕ) : ℤ)) m
    rw [ih m (a + 1), e]
    rfl

theorem intRange_append {a c b : ℤ} (h1 : a ≤ c) (h2 : c ≤ b) :
    intRange a b = intRange a c ++ intRange c b := by
  unfold intRange
  rw [show (b - a).toNat = (c - a).toNat + (b - c).toNat by omega,
    intRangeAux_append]
  congr 2
  omega

theorem intRange_cons {a b : ℤ} (h : a < b) : intRange a b = a :: intRange (a + 1) b := by
  unfold intRange
  rw [show (b - a).toNat = (b - (a + 1)).toNat + 1 by omega]
  rfl

theorem foldl_ext {α β : Type _} (f g : β → α → β) (l : List α)
    (h : ∀ b a, a ∈ l → f b a = g b a) : ∀ b, l.foldl f b = l.foldl g b := by
  induction l with
  | nil => intro b; rfl
  | cons x xs ih =>
    intro b
    simp only [List.foldl_cons]
    rw [h b x (List.mem_cons_self x xs)]
    exact ih (fun b a ha => h b a (List.mem_cons_of_mem x ha)) _

theorem foldl_fix {α β : Type _} (f : β → α → β) (l : List α)
    (h : ∀ b a, a ∈ l → f b a = b) : ∀ b, l.foldl f b = b := by
  induction l with
  | nil => intro b; rfl
  | cons x xs ih =>
    intro b
    simp only [List.foldl_cons]
    rw [h b x (List.mem_cons_self x xs)]
    exact ih (fun b a ha => h b a (List.mem_cons_of_mem x ha)) _

theorem foldlM_eq_some {α β : Type _} (f : β → α → Option β) (g : β → α → β)
    (l : List α) (h : ∀ b a, a ∈ l → f b a = some (g b a)) :
    ∀ b, l.foldlM f b = some (l.foldl g b) := by
  induction l with
  | nil => intro b; rfl
  | cons x xs ih =>
    intro b
    rw [List.foldlM_cons, h b x (List.mem_cons_self x xs)]
    show (some (g b x)).bind _ = _
    rw [Option.some_bind]
    exact ih (fun b a ha => h b a (List.mem_cons_of_mem x ha)) _

theorem writeCell_ne {C : ℤ → ℤ → ℝ} {i j : ℤ} {v : ℝ} {a b : ℤ}
    (h : ¬(a = i ∧ b = j)) : writeCell C i j v a b = C a b := by
  unfold writeCell
  rw [if_neg h]

theorem writeCell_self {C : ℤ → ℤ → ℝ} {i j : ℤ} {v : ℝ} :
    writeCell C i j v i j = v := by
  unfold writeCell
  rw [if_pos ⟨rfl, rfl⟩]

theorem bandStep_ne {X1 X2 : ℤ → ℤ → ℝ} {W : ℤ → ℝ} {n i : ℤ}
    {C : ℤ → ℤ → ℝ} {j a b : ℤ} (h : ¬(a = i ∧ b = j)) :
    bandStep X1 X2 W n i C j a b = C a b :=
  writeCell_ne h

theorem bandStep_self {X1 X2 : ℤ → ℤ → ℝ} {W : ℤ → ℝ} {n i : ℤ}
    {C : ℤ → ℤ → ℝ} {j : ℤ} :
    bandStep X1 X2 W n i C j i j =
      localCost X1 X2 W n i j +
        min (C i (j - 1)) (min (C (i - 1) j) (C (i - 1) (j - 1))) :=
  writeCell_self

theorem innerFold_frame {X1 X2 : ℤ → ℤ → ℝ} {W : ℤ → ℝ} {n i : ℤ}
    {js : List ℤ} {C : ℤ → ℤ → ℝ} {a b : ℤ} (h : a ≠ i ∨ b ∉ js) :
    innerFold X1 X2 W n i js C a b = C a b := by
  induction js generalizing C with
  | nil => rfl
  | cons j rest ih =>
    have h1 : ¬(a = i ∧ b = j) := by
      rcases h with h | h
      · exact fun hc => h hc.1
      · exact fun hc => h (hc.2 ▸ List.mem_cons_self j rest)
    have h2 : a ≠ i ∨ b ∉ rest := by
      rcases h with h | h
      · exact Or.inl h
      · exact Or.inr (fun hr => h (List.mem_cons_of_mem j hr))
    show innerFold X1 X2 W n i rest (bandStep X1 X2 W n i C j) a b = C a b
    rw [ih h2]
    exact bandStep_ne h1

theorem innerFold_value {X1 X2 : ℤ → ℤ → ℝ} {W : ℤ → ℝ} {n i : ℤ}
    {lo hi j : ℤ} {C : ℤ → ℤ → ℝ} (h1 : lo ≤ j) (h2 : j < hi) :
    innerFold X1 X2 W n i (intRange lo hi) C i j =
      localCost X1 X2 W n i j +
        min (innerFold X1 X2 W n i (intRange lo hi) C i (j - 1))
          (min (C (i - 1) j) (C (i - 1) (j - 1))) := by
  have hsplit : intRange lo hi = intRange lo j ++ j :: intRange (j + 1) hi := by
    rw [intRange_append h1 (by omega : j ≤ hi), intRange_cons h2]
  have hfold : innerFold X1 X2 W n i (intRange lo hi) C =
      innerFold X1 X2 W n i (intRange (j + 1) hi)
        (bandStep X1 X2 W n i (innerFold X1 X2 W n i (intRange lo j) C) j) := by
    rw [hsplit]
    unfold innerFold
    rw [List.foldl_append, List.foldl_cons]
  have hjnot : j ∉ intRange (j + 1) hi := fun hm => by
    have := mem_intRange.mp hm; omega
  have hjnot' : j - 1 ∉ intRange (j + 1) hi := fun hm => by
    have := mem_intRange.mp hm; omega
  have e1 : innerFold X1 X2 W n i (intRange lo hi) C i (j - 1) =
      innerFold X1 X2 W n i (intRange lo j) C i (j - 1) := by
    rw [hfold, innerFold_frame (Or.inr hjnot'), bandStep_ne (by omega)]
  have e2 : innerFold X1 X2 W n i (intRange lo j) C (i - 1) j = C (i - 1) j :=
    innerFold_frame (Or.inl (by omega))
  have e3 : innerFold X1 X2 W n i (intRange lo j) C (i - 1) (j - 1) = C (i - 1) (j - 1) :=
    innerFold_frame (Or.inl (by omega))
  rw [e1, hfold, innerFold_frame (Or.inr hjnot), bandStep_self, e2, e3]

theorem runRows_frame {X1 X2 : ℤ → ℤ → ℝ} {W : ℤ → ℝ} {m n window : ℤ}
    {rows : List ℤ} {C : ℤ → ℤ → ℝ} {a b : ℤ} (h : a ∉ rows) :
    runRows X1 X2 W m n window rows C a b = C a b := by
  induction rows generalizing C with
  | nil => rfl
  | cons i rest ih =>
    show runRows X1 X2 W m n window rest (rowStep X1 X2 W m n window C i) a b = C a b
    rw [ih (fun hr => h (List.mem_cons_of_mem i hr))]
    exact innerFold_frame (Or.inl (fun he => h (he ▸ List.mem_cons_self i rest)))

theorem wdtw_row_eq {X1 X2 : ℤ → ℤ → ℝ} {W : ℤ → ℝ} {m n window i : ℤ}
    (h1 : 1 ≤ i) (h2 : i < m) (C : ℤ → ℤ → ℝ) (b : ℤ) :
    weighted_euclidean X1 X2 W m n window C i b =
      innerFold X1 X2 W n i (intRange (max 1 (i - window)) (min m (i + window)))
        (runRows X1 X2 W m n window (intRange 1 i) C) i b := by
  have hsplit : intRange 1 m = intRange 1 i ++ i :: intRange (i + 1) m := by
    rw [intRange_append (by omega : (1:ℤ) ≤ i) (by omega : i ≤ m), intRange_cons h2]
  have hnot : i ∉ intRange (i + 1) m := fun hm => by
    have := mem_intRange.mp hm; omega
  unfold weighted_euclidean
  rw [hsplit]
  show runRows X1 X2 W m n window (intRange 1 i ++ i :: intRange (i + 1) m) C i b = _
  unfold runRows
  rw [List.foldl_append, List.foldl_cons]
  exact runRows_frame hnot

theorem wdtw_prevrow_eq {X1 X2 : ℤ → ℤ → ℝ} {W : ℤ → ℝ} {m n window i : ℤ}
    (h1 : 1 ≤ i) (h2 : i < m) (C : ℤ → ℤ → ℝ) (b : ℤ) :
    weighted_euclidean X1 X2 W m n window C (i - 1) b =
      runRows X1 X2 W m n window (intRange 1 i) C (i - 1) b := by
  have hsplit : intRange 1 m = intRange 1 i ++ i :: intRange (i + 1) m := by
    rw [intRange_append (by omega : (1:ℤ) ≤ i) (by omega : i ≤ m), intRange_cons h2]
  have hnot : i - 1 ∉ intRange (i + 1) m := fun hm => by
    have := mem_intRange.mp hm; omega
  unfold weighted_euclidean
  rw [hsplit]
  show runRows X1 X2 W m n window (intRange 1 i ++ i :: intRange (i + 1) m) C (i - 1) b = _
  unfold runRows
  rw [List.foldl_append, List.foldl_cons]
  show runRows X1 X2 W m n window (intRange (i + 1) m)
    (rowStep X1 X2 W m n window (runRows X1 X2 W m n window (intRange 1 i) C) i) (i - 1) b = _
  rw [runRows_frame hnot]
  exact innerFold_frame (Or.inl (by omega))

theorem wdtw_eval {X1 X2 : ℤ → ℤ → ℝ} {W : ℤ → ℝ} {m n window : ℤ}
    {C : ℤ → ℤ → ℝ} {i j : ℤ} (h : evalCell m window i j) :
    weighted_euclidean X1 X2 W m n window C i j =
      localCost X1 X2 W n i j +
        min (weighted_euclidean X1 X2 W m n window C i (j - 1))
          (min (weighted_euclidean X1 X2 W m n window C (i - 1) j)
            (weighted_euclidean X1 X2 W m n window C (i - 1) (j - 1))) := by
  obtain ⟨h1, h2, h3, h4⟩ := h
  rw [wdtw_row_eq h1 h2 C j, innerFold_value h3 h4, ← wdtw_row_eq h1 h2 C (j - 1),
    ← wdtw_prevrow_eq h1 h2 C j, ← wdtw_prevrow_eq h1 h2 C (j - 1)]

theorem wdtw_frame {X1 X2 : ℤ → ℤ → ℝ} {W : ℤ → ℝ} {m n window : ℤ}
    {C : ℤ → ℤ → ℝ} {a b : ℤ} (h : ¬ evalCell m window a b) :
    weighted_euclidean X1 X2 W m n window C a b = C a b := by
  by_cases ha : 1 ≤ a ∧ a < m
  · have hb : b ∉ intRange (max 1 (a - window)) (min m (a + window)) := by
      intro hm
      exact h ⟨ha.1, ha.2, (mem_intRange.mp hm).1, (mem_intRange.mp hm).2⟩
    rw [wdtw_row_eq ha.1 ha.2 C b, innerFold_frame (Or.inr hb)]
    exact runRows_frame (fun hm => by have := mem_intRange.mp hm; omega)
  · unfold weighted_euclidean
    exact runRows_frame (fun hm => by have := mem_intRange.mp hm; omega)

theorem evalCell_iff {m w i j : ℤ} :
    evalCell m w i j ↔ 1 ≤ i ∧ i < m ∧ 1 ≤ j ∧ j < m ∧ i - j ≤ w ∧ j - i < w := by
  unfold evalCell
  omega

theorem foldl_add_eq (f : ℤ → ℝ) : ∀ (l : List ℤ) (b : ℝ),
    l.foldl (fun acc k => acc + f k) b = b + (l.map f).sum := by
  intro l
  induction l with
  | nil => intro b; simp
  | cons x xs ih =>
    intro b
    simp only [List.foldl_cons, List.map_cons, List.sum_cons, ih]
    ring

theorem intRangeAux_map_sum (f : ℤ → ℝ) : ∀ (N : ℕ) (a : ℤ),
    ((intRangeAux a N).map f).sum = ∑ k ∈ Finset.range N, f (a + (k : ℤ)) := by
  intro N
  induction N with
  | zero => intro a; simp [intRangeAux]
  | succ N ih =>
    intro a
    show f a + ((intRangeAux (a + 1) N).map f).sum = _
    rw [ih (a + 1), Finset.sum_range_succ', add_comm]
    congr 1
    · apply Finset.sum_congr rfl
      intro k _
      congr 1
      push_cast
      ring
    · congr 1
      simp

theorem sqDiff_eq_sum (X1 X2 : ℤ → ℤ → ℝ) (n i j : ℤ) :
    sqDiff X1 X2 n i j =
      ∑ k ∈ Finset.range n.toNat, (X1 i (k : ℤ) - X2 j (k : ℤ)) ^ 2 := by
  unfold sqDiff intRange
  rw [foldl_add_eq, intRangeAux_map_sum]
  rw [show (n - 0).toNat = n.toNat by omega]
  rw [Finset.sum_congr rfl (fun k _ => by rw [zero_add])]
  ring

theorem sqDiff_one (X1 X2 : ℤ → ℤ → ℝ) (i j : ℤ) :
    sqDiff X1 X2 1 i j = (X1 i 0 - X2 j 0) ^ 2 := by
  rw [sqDiff_eq_sum]
  simp

theorem localCost_one (X1 X2 : ℤ → ℤ → ℝ) (W : ℤ → ℝ) (i j : ℤ) :
    localCost X1 X2 W 1 i j = W i * W j * |X1 i 0 - X2 j 0| := by
  unfold localCost
  rw [sqDiff_one, Real.sqrt_sq_eq_abs]

theorem sqDiffChecked_eq {X1 X2 : ℤ → ℤ → ℝ} {m n i j : ℤ}
    (h1 : 0 ≤ i) (h2 : i < m) (h3 : 0 ≤ j) (h4 : j < m) :
    sqDiffChecked X1 X2 m n i j = some (sqDiff X1 X2 n i j) := by
  unfold sqDiffChecked sqDiff
  apply foldlM_eq_some
  intro acc k hk
  have hm := mem_intRange.mp hk
  unfold getM
  rw [if_pos ⟨h1, h2, hm.1, hm.2⟩, if_pos ⟨h3, h4, hm.1, hm.2⟩]
  rfl

theorem bandStepChecked_eq {X1 X2 : ℤ → ℤ → ℝ} {W : ℤ → ℝ} {m n i : ℤ}
    {C : ℤ → ℤ → ℝ} {j : ℤ} (h1 : 1 ≤ i) (h2 : i < m) (h3 : 1 ≤ j) (h4 : j < m) :
    bandStepChecked X1 X2 W m n i C j = some (bandStep X1 X2 W n i C j) := by
  unfold bandStepChecked
  rw [sqDiffChecked_eq (by omega) h2 (by omega) h4]
  unfold getV getM
  rw [if_pos (⟨by omega, h2⟩ : 0 ≤ i ∧ i < m)]
  rw [if_pos (⟨by omega, h4⟩ : 0 ≤ j ∧ j < m)]
  rw [if_pos (⟨by omega, by omega, by omega, by omega⟩ :
    0 ≤ i ∧ i < m ∧ 0 ≤ j - 1 ∧ j - 1 < m)]
  rw [if_pos (⟨by omega, by omega, by omega, by omega⟩ :
    0 ≤ i - 1 ∧ i - 1 < m ∧ 0 ≤ j ∧ j < m)]
  rw [if_pos (⟨by omega, by omega, by omega, by omega⟩ :
    0 ≤ i - 1 ∧ i - 1 < m ∧ 0 ≤ j - 1 ∧ j - 1 < m)]
  simp only [Option.bind_eq_bind, Option.some_bind]
  unfold setM
  rw [if_pos (⟨by omega, by omega, by omega, by omega⟩ :
    0 ≤ i ∧ i < m ∧ 0 ≤ j ∧ j < m)]
  rfl

theorem checked_eq (X1 X2 : ℤ → ℤ → ℝ) (W : ℤ → ℝ) (m n window : ℤ)
    (C : ℤ → ℤ → ℝ) :
    checked_weighted_euclidean X1 X2 W m n window C =
      some (weighted_euclidean X1 X2 W m n window C) := by
  unfold checked_weighted_euclidean weighted_euclidean runRows
  apply foldlM_eq_some
  intro acc i hi
  have hm := mem_intRange.mp hi
  show _ = some (rowStep X1 X2 W m n window acc i)
  unfold rowStep innerFold
  apply foldlM_eq_some
  intro C' j hj
  have hmj := mem_intRange.mp hj
  exact bandStepChecked_eq (by omega) (by omega) (by omega) (by omega)

/-- Claim C9 (confirmed): for m = 1 the outer loop never executes, so the
kernel writes no cell at all and the cost matrix is returned cell for cell
as supplied. -/
theorem C9_m_one_identity (X1 X2 : ℤ → ℤ → ℝ) (W : ℤ → ℝ) (n window : ℤ)
    (C : ℤ → ℤ → ℝ) (a b : ℤ) :
    weighted_euclidean X1 X2 W 1 n window C a b = C a b := by
  unfold weighted_euclidean
  rw [intRange_nil (by omega : (1:ℤ) ≤ 1)]
  rfl

/-- Claim C10 (confirmed): for every m at least 1 and every window at most 0
(negative values included), the inner loop range is empty for every i, so
the kernel writes nothing and the cost matrix is returned exactly as
supplied. -/
theorem C10_nonpos_window (X1 X2 : ℤ → ℤ → ℝ) (W : ℤ → ℝ) (m n window : ℤ)
    (C : ℤ → ℤ → ℝ) (hm : 1 ≤ m) (hw : window ≤ 0) (a b : ℤ) :
    weighted_euclidean X1 X2 W m n window C a b = C a b := by
  have hstep : ∀ (C' : ℤ → ℤ → ℝ) (i : ℤ), i ∈ intRange 1 m →
      rowStep X1 X2 W m n window C' i = C' := by
    intro C' i hi
    have hm' := mem_intRange.mp hi
    unfold rowStep
    rw [intRange_nil (by omega : min m (i + window) ≤ max 1 (i - window))]
    rfl
  show runRows X1 X2 W m n window (intRange 1 m) C a b = C a b
  unfold runRows
  rw [foldl_fix _ _ hstep C]

/-- Witness for C10 at the concrete input m = 3, n = 1, window = -1. -/
theorem C10_nonpos_window_witness :
    (1:ℤ) ≤ 3 ∧ (-1:ℤ) ≤ 0 ∧
      weighted_euclidean X1c X1c Wc 3 1 (-1) C0c 2 2 = C0c 2 2 :=
  ⟨by decide, by decide,
    C10_nonpos_window X1c X1c Wc 3 1 (-1) C0c (by decide) (by decide) 2 2⟩

/-- Claim C6 (confirmed): running the kernel with any window of at least m
produces, cell for cell, the same cost matrix as running it with
window = m. -/
theorem C6_degenerate_window (X1 X2 : ℤ → ℤ → ℝ) (W : ℤ → ℝ) (m n : ℤ)
    (C : ℤ → ℤ → ℝ) (window : ℤ) (h : m ≤ window) (a b : ℤ) :
    weighted_euclidean X1 X2 W m n window C a b =
      weighted_euclidean X1 X2 W m n m C a b := by
  have hfun : ∀ (C' : ℤ → ℤ → ℝ) (i : ℤ), i ∈ intRange 1 m →
      rowStep X1 X2 W m n window C' i = rowStep X1 X2 W m n m C' i := by
    intro C' i hi
    have hm' := mem_intRange.mp hi
    unfold rowStep
    rw [show max 1 (i - window) = max 1 (i - m) by omega,
      show min m (i + window) = min m (i + m) by omega]
  show runRows X1 X2 W m n window (intRange 1 m) C a b =
    runRows X1 X2 W m n m (intRange 1 m) C a b
  unfold runRows
  rw [foldl_ext _ _ _ hfun C]

/-- Witness for C6 at the concrete input m = 3, n = 1, window = 5. -/
theorem C6_degenerate_window_witness :
    (3:ℤ) ≤ 5 ∧
      weighted_euclidean X1c X1c Wc 3 1 5 C0c 1 1 =
        weighted_euclidean X1c X1c Wc 3 1 3 C0c 1 1 :=
  ⟨by decide, C6_degenerate_window X1c X1c Wc 3 1 C0c 5 (by decide) 1 1⟩

/-- Claim C3 (confirmed): for m at least 1, n and window non-negative, every
index the kernel uses stays within the declared extents; in the total
embedding where each out-of-range access returns an error, the error branch
is unreachable and the checked kernel returns exactly the unchecked
result. -/
theorem C3_inbounds (X1 X2 : ℤ → ℤ → ℝ) (W : ℤ → ℝ) (m n window : ℤ)
    (C : ℤ → ℤ → ℝ) (hm : 1 ≤ m) (hn : 0 ≤ n) (hw : 0 ≤ window) :
    checked_weighted_euclidean X1 X2 W m n window C =
      some (weighted_euclidean X1 X2 W m n window C) :=
  checked_eq X1 X2 W m n window C

/-- Witness for C3 at the concrete input m = 3, n = 1, window = 3. -/
theorem C3_inbounds_witness :
    (1:ℤ) ≤ 3 ∧ (0:ℤ) ≤ 1 ∧ (0:ℤ) ≤ 3 ∧
      checked_weighted_euclidean X1c X1c Wc 3 1 3 C0c =
        some (weighted_euclidean X1c X1c Wc 3 1 3 C0c) :=
  ⟨by decide, by decide, by decide,
    C3_inbounds X1c X1c Wc 3 1 3 C0c (by decide) (by decide) (by decide)⟩

/-- Counterexample for C2: with m = 3, window = 1, the cell (2, 1) has
|i - j| = 1, which is not smaller than the window, yet the kernel writes it
(the inner loop lower bound max(1, i - window) is inclusive, so cells with
i - j = window are evaluated): starting from the all-zero cost matrix the
cell ends up holding 1, not its initial value 0. -/
theorem C2_counterexample :
    ¬(|(2:ℤ) - 1| < 1) ∧
      weighted_euclidean oneAt2 zeroM Wc 3 1 1 zeroM 2 1 ≠ zeroM 2 1 := by
  constructor
  · decide
  · have h10 : weighted_euclidean oneAt2 zeroM Wc 3 1 1 zeroM 1 0 = 0 := by
      rw [wdtw_frame (by decide)]
      rfl
    have h20 : weighted_euclidean oneAt2 zeroM Wc 3 1 1 zeroM 2 0 = 0 := by
      rw [wdtw_frame (by decide)]
      rfl
    have h01 : weighted_euclidean oneAt2 zeroM Wc 3 1 1 zeroM 0 1 = 0 := by
      rw [wdtw_frame (by decide)]
      rfl
    have h00 : weighted_euclidean oneAt2 zeroM Wc 3 1 1 zeroM 0 0 = 0 := by
      rw [wdtw_frame (by decide)]
      rfl
    have lc11 : localCost oneAt2 zeroM Wc 1 1 1 = 0 := by
      rw [localCost_one]
      norm_num [oneAt2, zeroM, Wc]
    have h11 : weighted_euclidean oneAt2 zeroM Wc 3 1 1 zeroM 1 1 = 0 := by
      rw [wdtw_eval (by decide)]
      norm_num [lc11, h10, h01, h00, min_self]
    have lc21 : localCost oneAt2 zeroM Wc 1 2 1 = 1 := by
      rw [localCost_one]
      norm_num [oneAt2, zeroM, Wc]
    rw [wdtw_eval (by decide)]
    norm_num [lc21, h20, h11, h10, min_self, zeroM]

/-- Claim C2 as amended: the kernel writes only cells (i, j) with
1 ≤ i < m, 1 ≤ j < m, i - j ≤ window and j - i < window (the lower band
edge i - j = window is written, unlike the claimed strict |i - j| < window);
every other cell holds exactly the value it held before the call. -/
theorem C2_frame_amended (X1 X2 : ℤ → ℤ → ℝ) (W : ℤ → ℝ) (m n window : ℤ)
    (C : ℤ → ℤ → ℝ) (hm : 1 ≤ m) (hw : 0 ≤ window) (a b : ℤ)
    (h : ¬(1 ≤ a ∧ a < m ∧ 1 ≤ b ∧ b < m ∧ a - b ≤ window ∧ b - a < window)) :
    weighted_euclidean X1 X2 W m n window C a b = C a b :=
  wdtw_frame (fun he => h (evalCell_iff.mp he))

/-- Witness for the amended C2 at the concrete out-of-band cell (0, 5). -/
theorem C2_frame_amended_witness :
    (1:ℤ) ≤ 3 ∧ (0:ℤ) ≤ 1 ∧
      ¬(1 ≤ (0:ℤ) ∧ (0:ℤ) < 3 ∧ 1 ≤ (5:ℤ) ∧ (5:ℤ) < 3 ∧
        (0:ℤ) - 5 ≤ 1 ∧ (5:ℤ) - 0 < 1) ∧
      weighted_euclidean oneAt2 zeroM Wc 3 1 1 zeroM 0 5 = zeroM 0 5 :=
  ⟨by decide, by decide, by decide,
    C2_frame_amended oneAt2 zeroM Wc 3 1 1 zeroM (by decide) (by decide) 0 5 (by decide)⟩

/-- Claim C1 (confirmed): every evaluated cell (i, j) ends up holding
W[i] * W[j] * sqrt(sum over k < n of (X1[i,k] - X2[j,k])^2) plus the minimum
of its three predecessor cells, where each predecessor holds the value this
same call wrote to it if it was evaluated (all evaluated predecessors are
processed earlier in the traversal), and the caller-supplied boundary value
otherwise. -/
theorem C1_recurrence (X1 X2 : ℤ → ℤ → ℝ) (W : ℤ → ℝ) (m n window : ℤ)
    (C : ℤ → ℤ → ℝ) (i j : ℤ) (hm : 1 ≤ m) (hn : 0 ≤ n) (hw : 0 ≤ window)
    (hev : evalCell m window i j) :
    weighted_euclidean X1 X2 W m n window C i j =
      W i * W j *
          Real.sqrt (∑ k ∈ Finset.range n.toNat, (X1 i (k : ℤ) - X2 j (k : ℤ)) ^ 2) +
        min
          (if evalCell m window i (j - 1) then
            weighted_euclidean X1 X2 W m n window C i (j - 1)
          else C i (j - 1))
          (min
            (if evalCell m window (i - 1) j then
              weighted_euclidean X1 X2 W m n window C (i - 1) j
            else C (i - 1) j)
            (if evalCell m window (i - 1) (j - 1) then
              weighted_euclidean X1 X2 W m n window C (i - 1) (j - 1)
            else C (i - 1) (j - 1))) := by
  have hpred : ∀ a b : ℤ,
      (if evalCell m window a b then weighted_euclidean X1 X2 W m n window C a b
        else C a b) = weighted_euclidean X1 X2 W m n window C a b := by
    intro a b
    by_cases hcase : evalCell m window a b
    · rw [if_pos hcase]
    · rw [if_neg hcase, wdtw_frame hcase]
  rw [hpred, hpred, hpred, wdtw_eval hev]
  unfold localCost
  rw [sqDiff_eq_sum]

/-- Witness for C1 at the concrete input m = 3, n = 1, window = 3 and the
evaluated cell (1, 1). -/
theorem C1_recurrence_witness :
    (1:ℤ) ≤ 3 ∧ (0:ℤ) ≤ 1 ∧ (0:ℤ) ≤ 3 ∧ evalCell 3 3 1 1 ∧
      weighted_euclidean X1c X1c Wc 3 1 3 C0c 1 1 =
        Wc 1 * Wc 1 *
            Real.sqrt (∑ k ∈ Finset.range 1, (X1c 1 (k : ℤ) - X1c 1 (k : ℤ)) ^ 2) +
          min
            (if evalCell 3 3 1 0 then weighted_euclidean X1c X1c Wc 3 1 3 C0c 1 0
            else C0c 1 0)
            (min
              (if evalCell 3 3 0 1 then weighted_euclidean X1c X1c Wc 3 1 3 C0c 0 1
              else C0c 0 1)
              (if evalCell 3 3 0 0 then weighted_euclidean X1c X1c Wc 3 1 3 C0c 0 0
              else C0c 0 0)) :=
  ⟨by decide, by decide, by decide, by decide,
    C1_recurrence X1c X1c Wc 3 1 3 C0c 1 1 (by decide) (by decide) (by decide) (by decide)⟩

/-- Claim C8 (confirmed): for the concrete input m = 3, n = 1,
X1 = X2 = [0, 1, 2] as column vectors, W = [1, 1, 1], window = 3, with
C(0,0) preset to 0 and every other boundary cell preset to the sentinel 1e9,
the kernel produces C(1,1) = 0 and C(2,2) = 0. -/
theorem C8_concrete :
    weighted_euclidean X1c X1c Wc 3 1 3 C0c 1 1 = 0 ∧
      weighted_euclidean X1c X1c Wc 3 1 3 C0c 2 2 = 0 := by
  have hf10 : weighted_euclidean X1c X1c Wc 3 1 3 C0c 1 0 = 1000000000 := by
    rw [wdtw_frame (by decide)]
    norm_num [C0c]
  have hf01 : weighted_euclidean X1c X1c Wc 3 1 3 C0c 0 1 = 1000000000 := by
    rw [wdtw_frame (by decide)]
    norm_num [C0c]
  have hf00 : weighted_euclidean X1c X1c Wc 3 1 3 C0c 0 0 = 0 := by
    rw [wdtw_frame (by decide)]
    norm_num [C0c]
  have hf02 : weighted_euclidean X1c X1c Wc 3 1 3 C0c 0 2 = 1000000000 := by
    rw [wdtw_frame (by decide)]
    norm_num [C0c]
  have hf20 : weighted_euclidean X1c X1c Wc 3 1 3 C0c 2 0 = 1000000000 := by
    rw [wdtw_frame (by decide)]
    norm_num [C0c]
  have hlc11 : localCost X1c X1c Wc 1 1 1 = 0 := by
    rw [localCost_one]
    norm_num [X1c, Wc]
  have hlc22 : localCost X1c X1c Wc 1 2 2 = 0 := by
    rw [localCost_one]
    norm_num [X1c, Wc]
  have hlc12 : localCost X1c X1c Wc 1 1 2 = 1 := by
    rw [localCost_one]
    rw [show X1c 1 0 - X1c 2 0 = -1 by norm_num [X1c]]
    rw [abs_neg, abs_one]
    norm_num [Wc]
  have hlc21 : localCost X1c X1c Wc 1 2 1 = 1 := by
    rw [localCost_one]
    rw [show X1c 2 0 - X1c 1 0 = 1 by norm_num [X1c]]
    rw [abs_one]
    norm_num [Wc]
  have h11 : weighted_euclidean X1c X1c Wc 3 1 3 C0c 1 1 = 0 := by
    rw [wdtw_eval (by decide)]
    norm_num [hlc11, hf10, hf01, hf00, min_def]
  have h12 : weighted_euclidean X1c X1c Wc 3 1 3 C0c 1 2 = 1 := by
    rw [wdtw_eval (by decide)]
    norm_num [hlc12, h11, hf02, hf01, min_def]
  have h21 : weighted_euclidean X1c X1c Wc 3 1 3 C0c 2 1 = 1 := by
    rw [wdtw_eval (by decide)]
    norm_num [hlc21, hf20, h11, hf10, min_def]
  refine ⟨h11, ?_⟩
  rw [wdtw_eval (by decide)]
  norm_num [hlc22, h21, h12, h11, min_def]

/-- Counterexample for C7: with X1 all zero and X2 holding 1 at row 2 (all
weights 1, n = 1), the local cost at the evaluated cell (1, 2) is 1, but
after swapping the inputs the local cost at the same cell (1, 2) is 0 -- the
claimed symmetry at a fixed cell fails (only the transposed-cell symmetry
holds). -/
theorem C7_counterexample :
    evalCell 3 2 1 2 ∧
      localCost zeroM oneAt2 Wc 1 1 2 ≠ localCost oneAt2 zeroM Wc 1 1 2 := by
  refine ⟨by decide, ?_⟩
  have e1 : localCost zeroM oneAt2 Wc 1 1 2 = 1 := by
    rw [localCost_one]
    rw [show zeroM 1 0 - oneAt2 2 0 = -1 by norm_num [zeroM, oneAt2]]
    rw [abs_neg, abs_one]
    norm_num [Wc]
  have e2 : localCost oneAt2 zeroM Wc 1 1 2 = 0 := by
    rw [localCost_one]
    norm_num [oneAt2, zeroM, Wc]
  rw [e1, e2]
  norm_num

/-- Claim C7 as amended: for every cell (i, j) inside the evaluated band, the
local cost computed at (i, j) with inputs (X1, X2) equals the local cost
computed at the transposed cell (j, i) with the inputs swapped to (X2, X1),
W unchanged (Euclidean distance is symmetric and the weight product
commutes). -/
theorem C7_localCost_transpose (X1 X2 : ℤ → ℤ → ℝ) (W : ℤ → ℝ)
    (m n window i j : ℤ) (hev : evalCell m window i j) :
    localCost X1 X2 W n i j = localCost X2 X1 W n j i := by
  have hpoint : ∀ (b : ℝ) (k : ℤ), k ∈ intRange 0 n →
      b + (X1 i k - X2 j k) ^ 2 = b + (X2 j k - X1 i k) ^ 2 := by
    intro b k _
    ring
  unfold localCost sqDiff
  rw [mul_comm (W i) (W j), foldl_ext _ _ _ hpoint 0]

/-- Witness for the amended C7 at the concrete evaluated cell (1, 2). -/
theorem C7_localCost_transpose_witness :
    evalCell 3 2 1 2 ∧
      localCost zeroM oneAt2 Wc 1 1 2 = localCost oneAt2 zeroM Wc 1 2 1 :=
  ⟨by decide, C7_localCost_transpose zeroM oneAt2 Wc 3 1 2 1 2 (by decide)⟩

/-- Counterexample for C4: with all boundary values 0 (hence finite and
non-negative) but a weight vector holding -1 at index 2, the evaluated cell
(1, 2) ends up holding -1 < 0: without a non-negativity assumption on W the
claimed non-negativity of evaluated cells fails. -/
theorem C4_counterexample :
    evalCell 3 3 1 2 ∧ weighted_euclidean zeroM oneAt2 Wneg 3 1 3 zeroM 1 2 < 0 := by
  refine ⟨by decide, ?_⟩
  have hf10 : weighted_euclidean zeroM oneAt2 Wneg 3 1 3 zeroM 1 0 = 0 := by
    rw [wdtw_frame (by decide)]
    rfl
  have hf01 : weighted_euclidean zeroM oneAt2 Wneg 3 1 3 zeroM 0 1 = 0 := by
    rw [wdtw_frame (by decide)]
    rfl
  have hf00 : weighted_euclidean zeroM oneAt2 Wneg 3 1 3 zeroM 0 0 = 0 := by
    rw [wdtw_frame (by decide)]
    rfl
  have hf02 : weighted_euclidean zeroM oneAt2 Wneg 3 1 3 zeroM 0 2 = 0 := by
    rw [wdtw_frame (by decide)]
    rfl
  have hlc11 : localCost zeroM oneAt2 Wneg 1 1 1 = 0 := by
    rw [localCost_one]
    norm_num [zeroM, oneAt2, Wneg]
  have h11 : weighted_euclidean zeroM oneAt2 Wneg 3 1 3 zeroM 1 1 = 0 := by
    rw [wdtw_eval (by decide)]
    norm_num [hlc11, hf10, hf01, hf00, min_self]
  have hlc12 : localCost zeroM oneAt2 Wneg 1 1 2 = -1 := by
    rw [localCost_one]
    rw [show zeroM 1 0 - oneAt2 2 0 = -1 by norm_num [zeroM, oneAt2]]
    rw [abs_neg, abs_one]
    norm_num [Wneg]
  rw [wdtw_eval (by decide)]
  norm_num [hlc12, h11, hf02, hf01, min_self]

/-- Claim C4 as amended: if every boundary value of C that the recurrence can
read is non-negative before the call and additionally every weight W[k] for
k in [1, m) is non-negative, then after the call every evaluated cell is
non-negative (finiteness is automatic in the real-number model). -/
theorem C4_nonneg_amended (X1 X2 : ℤ → ℤ → ℝ) (W : ℤ → ℝ) (m n window : ℤ)
    (C : ℤ → ℤ → ℝ)
    (hW : ∀ k : ℤ, 1 ≤ k → k < m → 0 ≤ W k)
    (hC : ∀ a b : ℤ, readableBoundary m window a b → 0 ≤ C a b)
    (i j : ℤ) (hev : evalCell m window i j) :
    0 ≤ weighted_euclidean X1 X2 W m n window C i j := by
  have key : ∀ (N : ℕ) (i j : ℤ), (i + j).toNat ≤ N → evalCell m window i j →
      0 ≤ weighted_euclidean X1 X2 W m n window C i j := by
    intro N
    induction N with
    | zero =>
      intro i j hN hev
      have h := evalCell_iff.mp hev
      omega
    | succ N ih =>
      intro i j hN hev
      have h := evalCell_iff.mp hev
      have hpred : ∀ a b : ℤ, isPred i j a b →
          0 ≤ weighted_euclidean X1 X2 W m n window C a b := by
        intro a b hp
        by_cases hpe : evalCell m window a b
        · have h2 := evalCell_iff.mp hpe
          apply ih a b _ hpe
          unfold isPred at hp
          rcases hp with ⟨rfl, rfl⟩ | ⟨rfl, rfl⟩ | ⟨rfl, rfl⟩ <;> omega
        · rw [wdtw_frame hpe]
          exact hC a b ⟨hpe, i, j, hev, hp⟩
      rw [wdtw_eval hev]
      apply add_nonneg
      · unfold localCost
        exact mul_nonneg (mul_nonneg (hW i h.1 h.2.1) (hW j h.2.2.1 h.2.2.2.1))
          (Real.sqrt_nonneg _)
      · exact le_min (hpred _ _ (Or.inl ⟨rfl, rfl⟩))
          (le_min (hpred _ _ (Or.inr (Or.inl ⟨rfl, rfl⟩)))
            (hpred _ _ (Or.inr (Or.inr ⟨rfl, rfl⟩))))
  exact key (i + j).toNat i j le_rfl hev

/-- Witness for the amended C4 at the concrete input m = 3, n = 1,
window = 3 with all-one weights and non-negative boundary values. -/
theorem C4_nonneg_amended_witness :
    evalCell 3 3 1 1 ∧ 0 ≤ weighted_euclidean X1c X1c Wc 3 1 3 C0c 1 1 :=
  ⟨by decide,
    C4_nonneg_amended X1c X1c Wc 3 1 3 C0c
      (fun k h1 h2 => by norm_num [Wc])
      (fun a b hb => by
        unfold C0c
        by_cases hab : a = 0 ∧ b = 0
        · rw [if_pos hab]
        · rw [if_neg hab]
          norm_num)
      1 1 (by decide)⟩

/-- Claim C5 (confirmed): enlarging the window from w1 to w2 at least w1 can
only decrease or keep equal each cell evaluated under w1, provided no cell
in the w2 dependency chain of that cell is evaluated under w2 but was a
sentinel (unevaluated) cell under w1. -/
theorem C5_window_mono (X1 X2 : ℤ → ℤ → ℝ) (W : ℤ → ℝ) (m n : ℤ)
    (C : ℤ → ℤ → ℝ) (w1 w2 : ℤ) (hw : w1 ≤ w2) (i j : ℤ)
    (hev : evalCell m w1 i j)
    (hchain : ∀ a b : ℤ, DepReach m w2 i j a b → evalCell m w2 a b → evalCell m w1 a b) :
    weighted_euclidean X1 X2 W m n w2 C i j ≤
      weighted_euclidean X1 X2 W m n w1 C i j := by
  have mono : ∀ a b : ℤ, evalCell m w1 a b → evalCell m w2 a b := by
    intro a b hab
    rw [evalCell_iff] at hab ⊢
    omega
  have key : ∀ (N : ℕ) (i j : ℤ), (i + j).toNat ≤ N → evalCell m w1 i j →
      (∀ a b : ℤ, DepReach m w2 i j a b → evalCell m w2 a b → evalCell m w1 a b) →
      weighted_euclidean X1 X2 W m n w2 C i j ≤
        weighted_euclidean X1 X2 W m n w1 C i j := by
    intro N
    induction N with
    | zero =>
      intro i j hN hev _
      have h := evalCell_iff.mp hev
      omega
    | succ N ih =>
      intro i j hN hev hchain
      have h := evalCell_iff.mp hev
      have hpred : ∀ a b : ℤ, isPred i j a b →
          weighted_euclidean X1 X2 W m n w2 C a b ≤
            weighted_euclidean X1 X2 W m n w1 C a b := by
        intro a b hp
        by_cases hpe : evalCell m w1 a b
        · have h2 := evalCell_iff.mp hpe
          refine ih a b ?_ hpe ?_
          · unfold isPred at hp
            rcases hp with ⟨rfl, rfl⟩ | ⟨rfl, rfl⟩ | ⟨rfl, rfl⟩ <;> omega
          · intro u v hr hu
            exact hchain u v (DepReach.step hp (mono a b hpe) hr) hu
        · have hpe2 : ¬ evalCell m w2 a b := fun hx =>
            hpe (hchain a b (DepReach.base hp) hx)
          rw [wdtw_frame hpe, wdtw_frame hpe2]
      rw [wdtw_eval hev, wdtw_eval (mono i j hev)]
      apply add_le_add_left
      exact min_le_min (hpred _ _ (Or.inl ⟨rfl, rfl⟩))
        (min_le_min (hpred _ _ (Or.inr (Or.inl ⟨rfl, rfl⟩)))
          (hpred _ _ (Or.inr (Or.inr ⟨rfl, rfl⟩))))
  exact key (i + j).toNat i j le_rfl hev hchain

/-- Witness for C5 at the concrete windows w1 = 2 and w2 = 3 (m = 3) and the
evaluated cell (1, 1), whose dependency chain contains no cell evaluated
under either window. -/
theorem C5_window_mono_witness :
    (2:ℤ) ≤ 3 ∧ evalCell 3 2 1 1 ∧
      weighted_euclidean X1c X1c Wc 3 1 3 C0c 1 1 ≤
        weighted_euclidean X1c X1c Wc 3 1 2 C0c 1 1 :=
  ⟨by decide, by decide,
    C5_window_mono X1c X1c Wc 3 1 C0c 2 3 (by decide) 1 1 (by decide)
      (by
        intro a b hr hb
        exfalso
        cases hr with
        | base hp =>
          unfold isPred at hp
          rcases hp with ⟨rfl, rfl⟩ | ⟨rfl, rfl⟩ | ⟨rfl, rfl⟩ <;> revert hb <;> decide
        | step hp hq hr2 =>
          unfold isPred at hp
          rcases hp with ⟨rfl, rfl⟩ | ⟨rfl, rfl⟩ | ⟨rfl, rfl⟩ <;> revert hq <;> decide)⟩
